import Mathlib

/-!
Verification development for the Stream Segmentation & Aggregation Core of the
`Automation` repository (directory `Translator/`).

The Python sources are shallowly embedded: Python strings become Lean `String`
(manipulated through their underlying `List Char`), Python `dict`s become
insertion-ordered association lists, Python `set`s of strings become
`Finset String`, and the float Jaccard ratio is modelled as the exact rational
`ℚ` (built with `Rat.divInt`, which is definitionally the quotient of the two
integer cardinalities; every quantity compared in the sources is an exact small
rational, so no float rounding behaviour is observable in the compared values).

Embedded sources:
* `Translator/ocr_to_vocab.py`   — sentence accumulation across OCR frames
* `Translator/word_clean.py`     — duplicate speaker-block removal
* `Translator/word_frequency.py` — frequency counting, merge and CSV round trip
* `Translator/merge_words.py`    — cumulative table merge and output ordering
-/

/-! ### Python character classes and string primitives -/

/-- Python regex `\s` / `str.strip()` whitespace (ASCII part; the sources only
ever produce ASCII whitespace via OCR text and `"\n"` joins). -/
def isSpaceCh (c : Char) : Bool :=
  c.toNat = 32 || c.toNat = 9 || c.toNat = 10 || c.toNat = 13 ||
    c.toNat = 11 || c.toNat = 12

/-- ASCII decimal digit. -/
def isDigitCh (c : Char) : Bool := 48 ≤ c.toNat && c.toNat ≤ 57

/-- ASCII uppercase letter (regex `[A-Z]`). -/
def isUpperCh (c : Char) : Bool := 65 ≤ c.toNat && c.toNat ≤ 90

/-- The double-quote character. -/
def quoteCh : Char := Char.ofNat 34

/-- The apostrophe character. -/
def apostCh : Char := Char.ofNat 39

/-- Drop trailing characters satisfying `p` (helper for `str.strip`). -/
def dropTrail (p : Char → Bool) (l : List Char) : List Char :=
  (l.reverse.dropWhile p).reverse

/-- Python `str.strip()` on a character list. -/
def pyStripL (l : List Char) : List Char :=
  dropTrail isSpaceCh (l.dropWhile isSpaceCh)

/-- Python `str.strip()` on a `String`. -/
def pyStrip (s : String) : String := ⟨pyStripL s.data⟩

/-- Python `str.strip(c)` for a single character `c` (strips every copy of `c`
from both ends). -/
def pyStripChar (c : Char) (l : List Char) : List Char :=
  dropTrail (· = c) (l.dropWhile (· = c))

/-- Python `str.lower()` for the character range the pipeline uses
(ASCII letters plus the German umlauts; `ß` is already lowercase). -/
def pyLowerCh (c : Char) : Char :=
  if isUpperCh c then Char.ofNat (c.toNat + 32)
  else if c = 'Ä' then 'ä'
  else if c = 'Ö' then 'ö'
  else if c = 'Ü' then 'ü'
  else c

/-- Python `str.lower()` on a `String`. -/
def pyLower (s : String) : String := ⟨s.data.map pyLowerCh⟩

/-- Accumulator-style worker for Python `str.split()` (split on whitespace
runs, dropping empty pieces). -/
def pySplitWsGo (acc : List Char) : List Char → List String
  | [] => if acc.isEmpty then [] else [⟨acc.reverse⟩]
  | c :: rest =>
    if isSpaceCh c then
      if acc.isEmpty then pySplitWsGo [] rest
      else ⟨acc.reverse⟩ :: pySplitWsGo [] rest
    else pySplitWsGo (c :: acc) rest

/-- Python `str.split()` with no argument. -/
def pySplitWs (s : String) : List String := pySplitWsGo [] s.data

/-- Worker for splitting a character list on a separator character
(Python `str.split(sep)` semantics: keeps empty pieces). -/
def splitChGo (sep : Char) (acc : List Char) : List Char → List (List Char)
  | [] => [acc.reverse]
  | c :: rest =>
    if c = sep then acc.reverse :: splitChGo sep [] rest
    else splitChGo sep (c :: acc) rest

/-- Python `str.split(sep)` for a one-character separator. -/
def splitCh (sep : Char) (l : List Char) : List (List Char) :=
  splitChGo sep [] l

/-! ### `Translator/ocr_to_vocab.py` — sentence accumulation -/

namespace OcrToVocab

/-- `normalize_for_sentence_accum`'s `re.sub(r"[\s\r\n]+", " ", text)`: collapse
every whitespace run to a single space.  The `Bool` argument records whether the
previous character was part of a whitespace run. -/
def collapseWsGo : Bool → List Char → List Char
  | _, [] => []
  | inRun, c :: rest =>
    if isSpaceCh c then
      if inRun then collapseWsGo true rest
      else ' ' :: collapseWsGo true rest
    else c :: collapseWsGo false rest

/-- `normalize_for_sentence_accum(text)`:
`re.sub(r"[\s\r\n]+", " ", text).strip()`. -/
def normalize_for_sentence_accum (s : String) : String :=
  ⟨pyStripL (collapseWsGo false s.data)⟩

/-- Sentence terminator recognised by `completed_sentences_and_remainder`
(`text.rfind(".")` / `text.rfind("?")`). -/
def isTermCh (c : Char) : Bool := c = '.' || c = '?'

/-- Index of the last `.` or `?` in the list
(`max(text.rfind("."), text.rfind("?"))`, with `none` for `-1`). -/
def lastTermIdx : List Char → Option Nat
  | [] => none
  | c :: rest =>
    match lastTermIdx rest with
    | some k => some (k + 1)
    | none => if isTermCh c then some 0 else none

/-- Terminator class of the sentence-splitting regex `(?<=[.?!])\s+`. -/
def isSplitTermCh (c : Char) : Bool := c = '.' || c = '?' || c = '!'

/-- Worker for `re.split(r"(?<=[.?!])\s+", chunk)`.
`skipping` is true while the current whitespace run (the regex match) is being
consumed; `prev` is the previous character (`Char.ofNat 0` sentinel at the
start, where the lookbehind cannot match); `acc` is the current piece,
reversed. -/
def splitSentGo : Bool → Char → List Char → List Char → List (List Char)
  | _, _, acc, [] => [acc.reverse]
  | true, _, acc, c :: rest =>
    if isSpaceCh c then splitSentGo true c acc rest
    else splitSentGo false c [c] rest
  | false, prev, acc, c :: rest =>
    if isSpaceCh c && isSplitTermCh prev then
      acc.reverse :: splitSentGo true c [] rest
    else splitSentGo false c (c :: acc) rest

/-- `re.split(r"(?<=[.?!])\s+", chunk)`. -/
def splitSent (l : List Char) : List (List Char) :=
  splitSentGo false (Char.ofNat 0) [] l

/-- `completed_sentences_and_remainder(text)` from `ocr_to_vocab.py`
(lines 287–300). -/
def completed_sentences_and_remainder (text : String) : List String × String :=
  if text = "" then ([], "")
  else
    match lastTermIdx text.data with
    | none => ([], pyStrip text)
    | some e =>
      let completed_chunk := text.data.take (e + 1)
      let remainder := pyStripL (text.data.drop (e + 1))
      let sentences :=
        ((splitSent completed_chunk).map (fun s => pyStripL s)).filter
          (fun s => ¬s.isEmpty)
      (sentences.map (fun s => ⟨s⟩), ⟨remainder⟩)

/-- One iteration of the accumulation step in `main`'s polling loop
(lines 370–372): normalize the frame, concatenate the carry buffer, and split
off the completed sentences.  (`batch = f"{carry} {cleaned}".strip() if carry
else cleaned`.) -/
def ocr_ingest (carry frame : String) : List String × String :=
  let cleaned := normalize_for_sentence_accum frame
  let batch := if carry = "" then cleaned else pyStrip (carry ++ " " ++ cleaned)
  completed_sentences_and_remainder batch

end OcrToVocab

/-! ### `Translator/word_clean.py` — duplicate speaker-block removal -/

namespace WordClean

/-- Literal-prefix matcher (helper for the speaker regex). -/
def dropLit : List Char → List Char → Option (List Char)
  | [], l => some l
  | _ :: _, [] => none
  | p :: ps, c :: cs => if c = p then dropLit ps cs else none

/-- `is_speaker_line(line)`: `re.match(r'^(Jonathan Spill \d+ [A-Z]+)$',
line.strip())`. -/
def is_speaker_line (line : String) : Bool :=
  match dropLit "Jonathan Spill ".data (pyStripL line.data) with
  | none => false
  | some r =>
    let ds := r.takeWhile isDigitCh
    let r2 := r.dropWhile isDigitCh
    !ds.isEmpty &&
      match r2 with
      | [] => false
      | c :: r3 =>
        c = ' ' && !(r3.takeWhile isUpperCh).isEmpty &&
          (r3.dropWhile isUpperCh).isEmpty

/-- `normalize_text(text)`: collapse whitespace on the stripped text, delete
the trailing run of `,`/`.` characters (`re.sub(r'[,.]*$', '', ...)`), and
lowercase. -/
def normalize_text (s : String) : String :=
  ⟨(dropTrail (fun c => c = ',' || c = '.')
      (OcrToVocab.collapseWsGo false (pyStripL s.data))).map pyLowerCh⟩

/-- The word set `set(text.split())` used by `calculate_similarity`. -/
def toWordSet (s : String) : Finset String := (pySplitWs s).toFinset

/-- `calculate_similarity(text1, text2)` (lines 87–100), acting on the word
sets the source computes with `set(text1.split())` / `set(text2.split())`.
The float ratio `intersection / union` is modelled as the exact rational
`Rat.divInt intersection union`; every property the sources compare is exact
at these small rationals. -/
def calculate_similarity (words1 words2 : Finset String) : ℚ :=
  if words1 = ∅ ∨ words2 = ∅ then 0
  else
    let intersection := (words1 ∩ words2).card
    let un := (words1 ∪ words2).card
    if 0 < un then Rat.divInt intersection un else 0

/-- Similarity of two texts, as called inside `remove_duplicates`. -/
def similarityOfTexts (t1 t2 : String) : ℚ :=
  calculate_similarity (toWordSet t1) (toWordSet t2)

/-- `'\n'.join(block)`. -/
def joinNL : List String → String
  | [] => ""
  | [s] => s
  | s :: rest => s ++ "\n" ++ joinNL rest

/-- The duplicate test of `remove_duplicates`: an exact match against any seen
block, otherwise Jaccard similarity of the normalized texts above `0.7`. -/
def isDupBlock (blockText : String) (seen : List String) : Bool :=
  seen.any (fun s => blockText = s) ||
    seen.any (fun s =>
      Rat.divInt 7 10 <
        similarityOfTexts (normalize_text blockText) (normalize_text s))

/-- End-of-input handling of `remove_duplicates` (the trailing
`if current_block:` check after the `while` loop). -/
def finalBlock (cleaned cb : List String) (seen : List String) : List String :=
  if cb.isEmpty then cleaned
  else if isDupBlock (joinNL cb) seen then cleaned
  else cleaned ++ cb

/-- The `while i < len(lines):` loop of `remove_duplicates` (lines 102–186).
State: remaining lines, `current_block`, `last_speaker`, `cleaned_lines`,
`seen_blocks`.  The branch that judges a block duplicate performs the source's
`i += len(current_block)` jump, i.e. it drops `len(current_block) - 1` further
lines after the speaker line it is standing on.  `fuel` only forces structural
recursion; the caller passes `lines.length + 1`, which exceeds the number of
loop iterations, so the fuel branch is never taken. -/
def removeDupGo : Nat → List String → List String → Option String →
    List String → List String → List String
  | 0, _, cb, _, cleaned, seen => finalBlock cleaned cb seen
  | _ + 1, [], cb, _, cleaned, seen => finalBlock cleaned cb seen
  | fuel + 1, l :: rest, cb, ls, cleaned, seen =>
    let line := pyStrip l
    if line = "" then removeDupGo fuel rest cb ls cleaned seen
    else if is_speaker_line line then
      if ¬cb.isEmpty ∧ ls.isSome then
        let blockText := joinNL cb
        if isDupBlock blockText seen then
          removeDupGo fuel (rest.drop (cb.length - 1)) [line] (some line)
            cleaned seen
        else
          removeDupGo fuel rest [line] (some line) (cleaned ++ cb)
            (seen ++ [blockText])
      else
        removeDupGo fuel rest [line] (some line) (cleaned ++ cb) seen
    else removeDupGo fuel rest (cb ++ [line]) ls cleaned seen

/-- `remove_duplicates(text)`: split on newlines, run the loop, join the
retained lines. -/
def remove_duplicates (text : String) : String :=
  let lines : List String := (splitCh '\n' text.data).map (fun l => ⟨l⟩)
  joinNL (removeDupGo (lines.length + 1) lines [] none [] [])

end WordClean

/-! ### Shared machinery: stable sort, decimal digits, Python `int()` -/

/-- Stable insertion step: `x` is placed before the first element `y` with
`le x y`, i.e. after every earlier element it ties with.  Together with
`stableSort` this models Python's stable `sorted`. -/
def insertSorted (le : α → α → Bool) (x : α) : List α → List α
  | [] => [x]
  | y :: ys => if le x y then x :: y :: ys else y :: insertSorted le x ys

/-- Stable sort (model of Python `sorted(l, key=...)`; `le` is the total
preorder induced by the key). -/
def stableSort (le : α → α → Bool) (l : List α) : List α :=
  l.foldr (insertSorted le) []

/-- Decimal digit character. -/
def digitCh (d : Nat) : Char := Char.ofNat (48 + d)

/-- Fuel-driven decimal printer (the fuel only makes the recursion structural;
`natRepr` passes `n + 1`, which always suffices). -/
def digitsFuelGo : Nat → Nat → List Char → List Char
  | 0, _, acc => acc
  | fuel + 1, n, acc =>
    if n < 10 then digitCh n :: acc
    else digitsFuelGo fuel (n / 10) (digitCh (n % 10) :: acc)

/-- Decimal representation of a natural number (Python `str(n)` / `f"{n}"`
for non-negative `n`). -/
def natRepr (n : Nat) : String := ⟨digitsFuelGo (n + 1) n []⟩

/-- Numeric value of a digit character. -/
def digitVal (c : Char) : Nat := c.toNat - 48

/-- Parse a non-empty all-digit character list. -/
def natDigits? (l : List Char) : Option Nat :=
  if !l.isEmpty && l.all isDigitCh then
    some (l.foldl (fun a c => 10 * a + digitVal c) 0)
  else none

/-- Python `int(str)`: strip whitespace, optional sign, decimal digits;
`none` models the `ValueError` raised on anything else. -/
def pyInt? (s : String) : Option Int :=
  match pyStripL s.data with
  | [] => none
  | c :: ds =>
    if c = '+' then (natDigits? ds).map Int.ofNat
    else if c = '-' then (natDigits? ds).map (fun n => -(n : Int))
    else (natDigits? (c :: ds)).map Int.ofNat

/-! ### `Translator/word_frequency.py` — counting, merging, CSV i/o -/

namespace WordFrequency

/-- Characters kept by `clean_word`'s `re.sub(r'[^a-zA-ZäöüÄÖÜß]', '', word)`. -/
def isWordCh (c : Char) : Bool :=
  ('a' ≤ c && c ≤ 'z') || ('A' ≤ c && c ≤ 'Z') ||
    c = 'ä' || c = 'ö' || c = 'ü' || c = 'Ä' || c = 'Ö' || c = 'Ü' || c = 'ß'

/-- `clean_word(word)` (lines 15–19). -/
def clean_word (s : String) : String := ⟨pyStripL (s.data.filter isWordCh)⟩

/-- `load_whitelist` (lines 21–38): strip each line, drop blanks and
`#`-comments, lowercase and clean, keep the non-empty results.  (The Python
`set` is modelled as a list; only membership is consumed.) -/
def load_whitelist (lines : List String) : List String :=
  lines.filterMap (fun line =>
    let word := pyStrip line
    if word ≠ "" ∧ word.data.head? ≠ some '#' then
      let cleaned := clean_word (pyLower word)
      if cleaned ≠ "" then some cleaned else none
    else none)

/-- One `word_counts[cleaned] += 1` update of the `collections.Counter`,
modelled as an insertion-ordered association list. -/
def bumpCount : List (String × Nat) → String → List (String × Nat)
  | [], w => [(w, 1)]
  | (k, n) :: rest, w =>
    if k = w then (k, n + 1) :: rest else (k, n) :: bumpCount rest w

/-- One iteration of the counting loop of `analyze_word_frequency`
(lines 55–60): clean the word, keep it only when non-empty, longer than 2
characters, and not whitelisted. -/
def countStep (whitelist : List String) (acc : List (String × Nat))
    (word : String) : List (String × Nat) :=
  if clean_word word ≠ "" ∧ 2 < (clean_word word).length then
    if clean_word word ∉ whitelist then bumpCount acc (clean_word word) else acc
  else acc

/-- The counting loop of `analyze_word_frequency` (lines 53–60):
`content.lower().split()`, then fold every word through `countStep`. -/
def word_counts (whitelist : List String) (content : String) :
    List (String × Nat) :=
  (pySplitWs (pyLower content)).foldl (countStep whitelist) []

/-- The in-memory frequency table `existing_frequencies`: a Python dict
`word -> {'frequency': int, 'translation': str}` modelled as an
insertion-ordered association list `(word, frequency, translation)`. -/
abbrev Table : Type := List (String × Nat × String)

/-- Dict lookup. -/
def lookupT : Table → String → Option (Nat × String)
  | [], _ => none
  | (k, e) :: rest, w => if k = w then some e else lookupT rest w

/-- One merge update (lines 83–92): if the word is present add the
frequencies in place, otherwise append it with an empty translation. -/
def mergeStep : Table → String → Nat → Table
  | [], w, f => [(w, f, "")]
  | (k, fr, tr) :: rest, w, f =>
    if k = w then (k, fr + f, tr) :: rest
    else (k, fr, tr) :: mergeStep rest w f

/-- The whole merge loop `for word, frequency in word_counts.items(): ...`. -/
def mergeCounts (t : Table) (b : List (String × Nat)) : Table :=
  b.foldl (fun t p => mergeStep t p.1 p.2) t

/-- The abstract effect of merging the frequencies `l` at one fixed word into
its optional table entry (used to characterise `mergeCounts` pointwise). -/
def applyAt : Option (Nat × String) → Nat → Option (Nat × String)
  | some (fr, tr), f => some (fr + f, tr)
  | none, f => some (f, "")

/-- Sort order of the output loop (line 100–101):
`sorted(..., key=lambda x: x[1]['frequency'], reverse=True)`.
Python's sort is stable, so ties keep the dict's insertion order. -/
def freqDescLe (a b : String × Nat × String) : Bool := decide (b.2.1 ≤ a.2.1)

/-- The row order `analyze_word_frequency` writes. -/
def sortRows (t : Table) : List (String × Nat × String) := stableSort freqDescLe t

/-- Field escaping of lines 103–104:
`word.replace(",", ";").replace('"', '""')`. -/
def escapeField (s : String) : String :=
  ⟨((s.data.map (fun c => if c = ',' then ';' else c)).map
      (fun c => if c = quoteCh then [quoteCh, quoteCh] else [c])).flatten⟩

/-- One output line (line 105):
`f"{data['frequency']},\"{escaped_word}\",\"{escaped_translation}\""`. -/
def serializeRow (r : String × Nat × String) : String :=
  ⟨(natRepr r.2.1).data ++ [','] ++ [quoteCh] ++ (escapeField r.1).data ++
    [quoteCh] ++ [','] ++ [quoteCh] ++ (escapeField r.2.2).data ++ [quoteCh]⟩

/-- `"\n".join`-with-trailing-newline: the writer emits every line followed by
`"\n"`. -/
def joinLinesNl : List String → String
  | [] => ""
  | s :: rest => s ++ "\n" ++ joinLinesNl rest

/-- The full file `analyze_word_frequency` writes (lines 94–105): header, then
the sorted, escaped rows. -/
def serialize_table (t : Table) : String :=
  joinLinesNl ("frequency,word,translation" :: (sortRows t).map serializeRow)

/-- First occurrence split (helper for `line.split(",", 2)`). -/
def splitFirst (sep : Char) : List Char → Option (List Char × List Char)
  | [] => none
  | c :: rest =>
    if c = sep then some ([], rest)
    else (splitFirst sep rest).map (fun p => (c :: p.1, p.2))

/-- Python `line.split(",", 2)`. -/
def split2 (l : List Char) : List (List Char) :=
  match splitFirst ',' l with
  | none => [l]
  | some (a, r) =>
    match splitFirst ',' r with
    | none => [a, r]
    | some (b, r2) => [a, b, r2]

/-- `parts[i].strip('"').strip("'")`. -/
def stripQuotes (l : List Char) : List Char :=
  pyStripChar apostCh (pyStripChar quoteCh l)

/-- The row-reading loop of lines 68–78.  A stripped-empty line and a line
with fewer than two comma-separated parts are skipped silently; a frequency
field `int()` cannot parse raises `ValueError`, which the surrounding `try`
turns into "warn and stop reading this file", i.e. the remaining lines are
dropped. -/
def parseLoop : List (List Char) → List (Int × String × String)
  | [] => []
  | ln :: rest =>
    if (pyStripL ln).isEmpty then parseLoop rest
    else
      match split2 (pyStripL ln) with
      | [p0, p1] =>
        match pyInt? ⟨p0⟩ with
        | none => []
        | some n => (n, ⟨stripQuotes p1⟩, "") :: parseLoop rest
      | [p0, p1, p2] =>
        match pyInt? ⟨p0⟩ with
        | none => []
        | some n => (n, ⟨stripQuotes p1⟩, ⟨stripQuotes p2⟩) :: parseLoop rest
      | _ => parseLoop rest

/-- Reading back a table file (lines 64–78): skip the header line
(`next(f)`), then parse each line into a `(frequency, word, translation)`
triple.  (The source stores the triples in a dict keyed by word; the claims
compare the triples themselves, so the list of parsed triples is returned.) -/
def parse_table (file : String) : List (Int × String × String) :=
  match splitCh '\n' file.data with
  | [] => []
  | _ :: rest => parseLoop rest

end WordFrequency

/-! ### `Translator/merge_words.py` — cumulative merge, output ordering -/

namespace MergeWords

/-- `parse_int(value)` (lines 14–18): `int(str(value).strip())` with any
failure mapped to `0`. -/
def parse_int (s : String) : Int := (pyInt? s).getD 0

/-- `normalize_word(word, case_insensitive)` (lines 20–22). -/
def normalize_word (ci : Bool) (w : String) : String :=
  let t := pyStrip w
  if ci then pyLower t else t

/-- The accumulator `acc: dict[word] -> {'freq': int, 'translations':
set[str]}`, insertion-ordered. -/
abbrev MWTable : Type := List (String × Int × Finset String)

/-- One CSV row as produced by `csv.DictReader` (the three consumed columns). -/
structure CsvRow where
  frequency : String
  word : String
  translation : String

/-- `SPLIT_RX.split(raw_tr)` followed by the source's
`[p.strip() for p in ... if p.strip()]`.  Splitting on the literal `|` and
stripping each piece is extensionally the same as splitting on
`\s*\|\s*` and stripping, since the pieces are stripped afterwards anyway. -/
def splitTranslations (raw : String) : List String :=
  ((splitCh '|' raw.data).map (fun p => (⟨pyStripL p⟩ : String))).filter
    (fun p => p ≠ "")

/-- `bucket = acc[word]; bucket["freq"] += freq; bucket["translations"].add(p)`
with `defaultdict` semantics: a missing word starts at frequency `0` with an
empty translation set. -/
def bucketAdd : MWTable → String → Int → List String → MWTable
  | [], w, f, ps => [(w, f, ps.foldl (fun s p => insert p s) ∅)]
  | (k, fr, trs) :: rest, w, f, ps =>
    if k = w then (k, fr + f, ps.foldl (fun s p => insert p s) trs) :: rest
    else (k, fr, trs) :: bucketAdd rest w f ps

/-- The per-row body of `collect_from_file`'s reader loop (lines 49–69). -/
def collectRow (ci split_tr : Bool) (acc : MWTable) (row : CsvRow) : MWTable :=
  let word := normalize_word ci row.word
  if word = "" then acc
  else
    let freq := parse_int row.frequency
    let raw_tr := pyStrip row.translation
    let parts : List String :=
      if raw_tr = "" then []
      else if split_tr then splitTranslations raw_tr
      else [raw_tr]
    bucketAdd acc word freq parts

/-- The required columns check of lines 35–41. -/
def requiredCols : List String := ["frequency", "word", "translation"]

/-- `collect_from_file` (lines 24–78) restricted to its data effect on `acc`:
a file whose header is missing a required column is skipped whole; otherwise
every row is folded into the accumulator. -/
def collect_from_file (fieldnames : List String) (rows : List CsvRow)
    (ci split_tr : Bool) (acc : MWTable) : MWTable :=
  if requiredCols.all
      (fun c => (fieldnames.map (fun f => pyLower (pyStrip f))).contains c) then
    rows.foldl (collectRow ci split_tr) acc
  else acc

/-- `" | ".join(sorted(data["translations"]))` (line 83). -/
def joinTranslations (trs : Finset String) : String :=
  String.intercalate " | " (trs.sort (· ≤ ·))

/-- The item order of `write_output` (lines 82–86):
`sorted(..., key=lambda x: (-x[1], x[0]))` — frequency descending, then word
ascending. -/
def itemLe (a b : String × Int × String) : Bool :=
  decide (b.2.1 < a.2.1) || (decide (a.2.1 = b.2.1) && decide (a.1 ≤ b.1))

/-- The rows `write_output` emits, in order. -/
def write_output_items (acc : MWTable) : List (String × Int × String) :=
  stableSort itemLe (acc.map (fun e => (e.1, e.2.1, joinTranslations e.2.2)))

end MergeWords

/-! ### Lemmas about the string primitives -/

theorem mem_dropTrail {p : Char → Bool} {l : List Char} {c : Char}
    (h : c ∈ dropTrail p l) : c ∈ l := by
  unfold dropTrail at h
  rw [List.mem_reverse] at h
  exact List.mem_reverse.mp ((List.dropWhile_sublist p).subset h)

theorem mem_pyStripL {l : List Char} {c : Char} (h : c ∈ pyStripL l) : c ∈ l :=
  (List.dropWhile_sublist isSpaceCh).subset (mem_dropTrail h)

theorem dropWhile_eq_self_of_head {p : Char → Bool} {l : List Char}
    (h : ∀ c, l.head? = some c → p c = false) : l.dropWhile p = l := by
  cases l with
  | nil => rfl
  | cons c rest => simp [List.dropWhile_cons, h c rfl]

theorem head?_dropWhile {p : Char → Bool} {l : List Char} {c : Char}
    (h : (l.dropWhile p).head? = some c) : p c = false := by
  induction l with
  | nil => simp at h
  | cons d rest ih =>
    rw [List.dropWhile_cons] at h
    by_cases hd : p d
    · simp [hd] at h; exact ih h
    · simp [hd] at h; simpa [← h] using hd

/-- "ends in no whitespace". -/
def NoTrailWs (l : List Char) : Prop :=
  ∀ c, l.getLast? = some c → isSpaceCh c = false

theorem noTrailWs_dropTrail (l : List Char) :
    ∀ c, (dropTrail isSpaceCh l).getLast? = some c → isSpaceCh c = false := by
  intro c hc
  unfold dropTrail at hc
  rw [List.getLast?_reverse] at hc
  exact head?_dropWhile hc

theorem noTrailWs_pyStripL (l : List Char) : NoTrailWs (pyStripL l) := by
  intro c hc
  exact noTrailWs_dropTrail _ c hc

theorem getLast?_of_suffix {s b : List Char} (h : s <:+ b) (hne : s ≠ []) :
    s.getLast? = b.getLast? := by
  obtain ⟨w, rfl⟩ := h
  exact (List.getLast?_append_of_ne_nil w hne).symm

theorem dropTrail_eq_self {p : Char → Bool} {l : List Char}
    (h : ∀ c, l.getLast? = some c → p c = false) : dropTrail p l = l := by
  unfold dropTrail
  rw [dropWhile_eq_self_of_head, List.reverse_reverse]
  intro c hc
  rw [List.head?_reverse] at hc
  exact h c hc

theorem pyStripL_suffix_of_noTrail {b t : List Char} (hb : NoTrailWs b)
    (ht : t <:+ b) : pyStripL t <:+ b := by
  have hu : t.dropWhile isSpaceCh <:+ b := (List.dropWhile_suffix _).trans ht
  unfold pyStripL
  by_cases h0 : t.dropWhile isSpaceCh = []
  · rw [h0]
    exact List.nil_suffix.trans hu
  · rw [dropTrail_eq_self]
    · exact hu
    · intro c hc
      rw [getLast?_of_suffix hu h0] at hc
      exact hb c hc

theorem pyStripL_eq_self {l : List Char}
    (hh : ∀ c, l.head? = some c → isSpaceCh c = false)
    (hl : ∀ c, l.getLast? = some c → isSpaceCh c = false) : pyStripL l = l := by
  unfold pyStripL
  rw [dropWhile_eq_self_of_head hh, dropTrail_eq_self hl]

/-! ### Lemmas about `completed_sentences_and_remainder` -/

namespace OcrToVocab

/-- The batch `main` feeds to `completed_sentences_and_remainder`
(`f"{carry} {cleaned}".strip() if carry else cleaned`). -/
def ocr_batch (carry frame : String) : String :=
  let cleaned := normalize_for_sentence_accum frame
  if carry = "" then cleaned else pyStrip (carry ++ " " ++ cleaned)

theorem ocr_ingest_eq (carry frame : String) :
    ocr_ingest carry frame =
      completed_sentences_and_remainder (ocr_batch carry frame) := rfl

theorem noTrailWs_ocr_batch (carry frame : String) :
    NoTrailWs (ocr_batch carry frame).data := by
  unfold ocr_batch normalize_for_sentence_accum pyStrip
  by_cases h : carry = "" <;> simp [h] <;> exact noTrailWs_pyStripL _

theorem lastTermIdx_none_mem {l : List Char} (h : lastTermIdx l = none) :
    ∀ c ∈ l, isTermCh c = false := by
  induction l with
  | nil => simp
  | cons d rest ih =>
    unfold lastTermIdx at h
    cases hr : lastTermIdx rest with
    | some k => rw [hr] at h; simp at h
    | none =>
      rw [hr] at h
      by_cases hd : isTermCh d
      · simp [hd] at h
      · intro c hc
        rcases List.mem_cons.mp hc with rfl | hc
        · simpa using hd
        · exact ih hr c hc

theorem lastTermIdx_eq_none {l : List Char}
    (h : ∀ c ∈ l, isTermCh c = false) : lastTermIdx l = none := by
  induction l with
  | nil => rfl
  | cons d rest ih =>
    unfold lastTermIdx
    rw [ih (fun c hc => h c (List.mem_cons_of_mem d hc))]
    simp [h d (List.mem_cons_self d rest)]

theorem lastTermIdx_some_drop {l : List Char} {e : Nat}
    (h : lastTermIdx l = some e) : ∀ c ∈ l.drop (e + 1), isTermCh c = false := by
  induction l generalizing e with
  | nil => simp [lastTermIdx] at h
  | cons d rest ih =>
    unfold lastTermIdx at h
    cases hr : lastTermIdx rest with
    | some k =>
      rw [hr] at h
      obtain rfl : k + 1 = e := by simpa using h
      simpa using ih hr
    | none =>
      rw [hr] at h
      by_cases hd : isTermCh d
      · obtain rfl : 0 = e := by simpa [hd] using h
        simpa using lastTermIdx_none_mem hr
      · simp [hd] at h

theorem lastTermIdx_some_exists {l : List Char} {e : Nat}
    (h : lastTermIdx l = some e) : ∃ c ∈ l, isTermCh c = true := by
  induction l generalizing e with
  | nil => simp [lastTermIdx] at h
  | cons d rest ih =>
    unfold lastTermIdx at h
    cases hr : lastTermIdx rest with
    | some k =>
      obtain ⟨c, hc, hterm⟩ := ih hr
      exact ⟨c, List.mem_cons_of_mem d hc, hterm⟩
    | none =>
      rw [hr] at h
      by_cases hd : isTermCh d
      · exact ⟨d, List.mem_cons_self d rest, hd⟩
      · simp [hd] at h

/-- Core remainder invariant of `completed_sentences_and_remainder`: the
remainder holds no `.`/`?` and, when the input has no trailing whitespace, it
is a suffix of the input. -/
theorem csr_remainder_spec (text : String) (hb : NoTrailWs text.data) :
    (∀ c ∈ (completed_sentences_and_remainder text).2.data, isTermCh c = false) ∧
      (completed_sentences_and_remainder text).2.data <:+ text.data := by
  by_cases h0 : text = ""
  · subst h0
    simp [completed_sentences_and_remainder]
  · cases hl : lastTermIdx text.data with
    | none =>
      simp only [completed_sentences_and_remainder, if_neg h0, hl, pyStrip]
      refine ⟨fun c hc => lastTermIdx_none_mem hl c (mem_pyStripL hc), ?_⟩
      exact pyStripL_suffix_of_noTrail hb (List.suffix_refl _)
    | some e =>
      simp only [completed_sentences_and_remainder, if_neg h0, hl]
      refine ⟨fun c hc => lastTermIdx_some_drop hl c (mem_pyStripL hc), ?_⟩
      exact pyStripL_suffix_of_noTrail hb (List.drop_suffix _ _)

end OcrToVocab

/-- C6 (amended): after an ingest step the carry buffer contains no sentence
terminator and is a suffix of the carry-concatenated normalized batch (not of
the latest normalized frame alone, as the claim stated). -/
theorem c6_thm (carry frame : String) :
    (∀ c ∈ (OcrToVocab.ocr_ingest carry frame).2.data,
        OcrToVocab.isTermCh c = false) ∧
      (OcrToVocab.ocr_ingest carry frame).2.data <:+
        (OcrToVocab.ocr_batch carry frame).data ∧
      OcrToVocab.ocr_ingest carry frame =
        OcrToVocab.completed_sentences_and_remainder
          (OcrToVocab.ocr_batch carry frame) := by
  have h := OcrToVocab.csr_remainder_spec (OcrToVocab.ocr_batch carry frame)
    (OcrToVocab.noTrailWs_ocr_batch carry frame)
  rw [OcrToVocab.ocr_ingest_eq]
  exact ⟨h.1, h.2, rfl⟩

/-- C6 counterexample: the claim says the carry buffer is a suffix of the
latest normalized input; after the frames `"abc"` then `"def"` the carry is
`"abc def"`, which is not a suffix of `normalize("def") = "def"`. -/
theorem c6_counterexample :
    (OcrToVocab.ocr_ingest "" "abc").2 = "abc" ∧
      (OcrToVocab.ocr_ingest "abc" "def").2 = "abc def" ∧
      ¬((OcrToVocab.ocr_ingest "abc" "def").2.data <:+
          (OcrToVocab.normalize_for_sentence_accum "def").data) := by
  decide

/-- C10: `!` never closes an accumulation batch: a text containing `!` but
neither `.` nor `?` yields no sentences and is carried whole (the source
applies `strip()`, a no-op on the already-normalized accumulated text); and a
non-empty sentence list can only arise when the text contains `.` or `?`. -/
theorem c10_thm (text : String) :
    (('!' ∈ text.data ∧ '.' ∉ text.data ∧ '?' ∉ text.data) →
        OcrToVocab.completed_sentences_and_remainder text = ([], pyStrip text) ∧
          (pyStrip text = text →
            OcrToVocab.completed_sentences_and_remainder text = ([], text))) ∧
      ((OcrToVocab.completed_sentences_and_remainder text).1 ≠ [] →
        '.' ∈ text.data ∨ '?' ∈ text.data) := by
  constructor
  · rintro ⟨hex, hdot, hq⟩
    have hne : text ≠ "" := by
      intro h; subst h; simp at hex
    have hnone : OcrToVocab.lastTermIdx text.data = none := by
      apply OcrToVocab.lastTermIdx_eq_none
      intro c hc
      have h1 : c ≠ '.' := fun h => hdot (h ▸ hc)
      have h2 : c ≠ '?' := fun h => hq (h ▸ hc)
      simp [OcrToVocab.isTermCh, h1, h2]
    constructor
    · simp [OcrToVocab.completed_sentences_and_remainder, if_neg hne, hnone]
    · intro hstrip
      simp [OcrToVocab.completed_sentences_and_remainder, if_neg hne, hnone,
        hstrip]
  · intro h1
    by_contra h2
    push_neg at h2
    have hnone : OcrToVocab.lastTermIdx text.data = none := by
      apply OcrToVocab.lastTermIdx_eq_none
      intro c hc
      have hc1 : c ≠ '.' := fun h => h2.1 (h ▸ hc)
      have hc2 : c ≠ '?' := fun h => h2.2 (h ▸ hc)
      simp [OcrToVocab.isTermCh, hc1, hc2]
    by_cases hne : text = ""
    · subst hne
      simp [OcrToVocab.completed_sentences_and_remainder] at h1
    · simp [OcrToVocab.completed_sentences_and_remainder, if_neg hne, hnone]
        at h1

/-- C10 witness at the concrete text `"Hi there! ok"`. -/
theorem c10_witness :
    OcrToVocab.completed_sentences_and_remainder "Hi there! ok" =
      ([], "Hi there! ok") :=
  ((c10_thm "Hi there! ok").1 (by decide)).2 (by decide)

/-- C1 counterexample: ingesting `"Hello wor"` then `"world. How are"`, the
carry concatenation is `"Hello wor world. How are"`, so the single completed
sentence is `"Hello wor world."` — not the `"Hello world."` the claim
expects (the code concatenates the carry with a space; it does not merge the
overlapping fragment). -/
theorem c1_counterexample :
    OcrToVocab.ocr_ingest "" "Hello wor" = ([], "Hello wor") ∧
      (OcrToVocab.ocr_ingest "Hello wor" "world. How are").2 = "How are" ∧
      (OcrToVocab.ocr_ingest "Hello wor" "world. How are").1 ≠
        ["Hello world."] := by
  decide

/-- C1 (amended): starting from an empty carry buffer, the frames
`"Hello wor"` then `"world. How are"` yield exactly one completed sentence,
`"Hello wor world."`, and leave `"How are"` as the new carry buffer. -/
theorem c1_thm :
    OcrToVocab.ocr_ingest "" "Hello wor" = ([], "Hello wor") ∧
      OcrToVocab.ocr_ingest "Hello wor" "world. How are" =
        (["Hello wor world."], "How are") := by
  decide

/-- C2: the duplicate-skip branch of `remove_duplicates` advances the line
index by the duplicate block's length *after* those lines were already
consumed (`i += len(current_block)` with `i` already past the block), so it
drops unprocessed lines of the *next* block.  Here the third block
`Jonathan Spill 2 B / x / y` is not a duplicate, yet its line `"x"` is lost
from the output. -/
theorem c2_thm :
    WordClean.remove_duplicates
        "Jonathan Spill 1 A\na b c d e\nJonathan Spill 1 A\na b c d e\nJonathan Spill 2 B\nx\ny" =
      "Jonathan Spill 1 A\na b c d e\nJonathan Spill 2 B\ny" := by
  decide

/-- C7: the Jaccard similarity of `calculate_similarity` is symmetric, equals
`1` on any non-empty set compared with itself, and equals `0` whenever either
word set is empty. -/
theorem c7_thm (A B : Finset String) :
    WordClean.calculate_similarity A B = WordClean.calculate_similarity B A ∧
      (A ≠ ∅ → WordClean.calculate_similarity A A = 1) ∧
      ((A = ∅ ∨ B = ∅) → WordClean.calculate_similarity A B = 0) := by
  refine ⟨?_, ?_, ?_⟩
  · unfold WordClean.calculate_similarity
    by_cases h : A = ∅ ∨ B = ∅
    · rw [if_pos h, if_pos (Or.symm h)]
    · rw [if_neg h, if_neg (fun hc => h (Or.symm hc))]
      rw [Finset.inter_comm, Finset.union_comm]
  · intro h
    have hcard : 0 < A.card :=
      Finset.card_pos.mpr (Finset.nonempty_iff_ne_empty.mpr h)
    unfold WordClean.calculate_similarity
    rw [if_neg (by simpa using h), Finset.inter_self, Finset.union_self,
      if_pos hcard, Rat.divInt_eq_div, div_self]
    exact_mod_cast Nat.pos_iff_ne_zero.mp hcard
  · intro h
    unfold WordClean.calculate_similarity
    rw [if_pos h]

/-- C7 witness: the non-empty singleton `{"a"}` compared with itself. -/
theorem c7_witness :
    WordClean.calculate_similarity {"a"} {"a"} = 1 :=
  (c7_thm {"a"} {"a"}).2.1 (by decide)

/-! ### Lemmas about the frequency merge -/

namespace WordFrequency

/-- The frequencies a batch carries for one fixed word, in batch order. -/
def keyWeights (b : List (String × Nat)) (x : String) : List Nat :=
  b.filterMap (fun p => if p.1 = x then some p.2 else none)

theorem lookupT_mergeStep (t : Table) (w : String) (f : Nat) (x : String) :
    lookupT (mergeStep t w f) x =
      if x = w then applyAt (lookupT t w) f else lookupT t x := by
  induction t with
  | nil =>
    by_cases hxw : x = w
    · subst hxw
      simp [mergeStep, lookupT, applyAt]
    · have hwx : ¬w = x := fun h => hxw h.symm
      simp [mergeStep, lookupT, applyAt, hxw, hwx]
  | cons e rest ih =>
    obtain ⟨k, fr, tr⟩ := e
    by_cases hkw : k = w
    · subst hkw
      by_cases hxk : x = k
      · subst hxk
        simp [mergeStep, lookupT, applyAt]
      · have hkx : ¬k = x := fun h => hxk h.symm
        simp [mergeStep, lookupT, applyAt, hxk, hkx]
    · by_cases hkx : k = x
      · subst hkx
        simp [mergeStep, lookupT, hkw]
      · simp [mergeStep, lookupT, hkw, hkx, ih]

theorem lookupT_mergeCounts (t : Table) (b : List (String × Nat)) (x : String) :
    lookupT (mergeCounts t b) x =
      (keyWeights b x).foldl applyAt (lookupT t x) := by
  induction b generalizing t with
  | nil => rfl
  | cons p rest ih =>
    obtain ⟨w, f⟩ := p
    show lookupT (mergeCounts (mergeStep t w f) rest) x = _
    rw [ih]
    by_cases hxw : x = w
    · subst hxw
      simp [keyWeights, lookupT_mergeStep]
    · have hwx : ¬w = x := fun h => hxw h.symm
      simp [keyWeights, lookupT_mergeStep, hxw, hwx]

theorem foldl_applyAt_some (l : List Nat) (fr : Nat) (tr : String) :
    l.foldl applyAt (some (fr, tr)) = some (fr + l.sum, tr) := by
  induction l generalizing fr with
  | nil => simp
  | cons f rest ih =>
    show rest.foldl applyAt (some (fr + f, tr)) = _
    rw [ih]
    simp [Nat.add_assoc]

theorem foldl_applyAt_none (l : List Nat) (h : l ≠ []) :
    l.foldl applyAt none = some (l.sum, "") := by
  cases l with
  | nil => exact absurd rfl h
  | cons f rest =>
    show rest.foldl applyAt (some (f, "")) = _
    rw [foldl_applyAt_some]
    simp

theorem foldl_applyAt_comm (e : Option (Nat × String)) (l1 l2 : List Nat) :
    l2.foldl applyAt (l1.foldl applyAt e) =
      l1.foldl applyAt (l2.foldl applyAt e) := by
  rcases eq_or_ne l1 [] with rfl | h1
  · simp
  · rcases eq_or_ne l2 [] with rfl | h2
    · simp
    · cases e with
      | none =>
        rw [foldl_applyAt_none l1 h1, foldl_applyAt_none l2 h2,
          foldl_applyAt_some, foldl_applyAt_some]
        simp [Nat.add_comm]
      | some e' =>
        obtain ⟨fr, tr⟩ := e'
        rw [foldl_applyAt_some, foldl_applyAt_some, foldl_applyAt_some,
          foldl_applyAt_some]
        simp [Nat.add_assoc, Nat.add_comm (l1.sum) (l2.sum)]

/-- Batch merging commutes (pointwise on the resulting dict). -/
theorem mergeCounts_comm (t : Table) (b1 b2 : List (String × Nat)) (x : String) :
    lookupT (mergeCounts (mergeCounts t b1) b2) x =
      lookupT (mergeCounts (mergeCounts t b2) b1) x := by
  rw [lookupT_mergeCounts, lookupT_mergeCounts, lookupT_mergeCounts,
    lookupT_mergeCounts]
  exact foldl_applyAt_comm (lookupT t x) (keyWeights b1 x) (keyWeights b2 x)

end WordFrequency

/-- C3: merging word-count batches into a table is associative (splitting a
batch is the same as merging its parts in sequence) and commutative as an
operation on the table-as-dict (Python `dict` equality is key-by-key, which
`lookupT` captures): any order of merging batches of the same multiset of
observations produces the same table.  A word already present accumulates
frequency; an absent word enters with an empty translation (`mergeStep`).
In particular the concrete tables `{a:2,b:1}` then `{a:1,c:3}` and
`{a:1,c:3}` then `{a:2,b:1}` agree. -/
theorem c3_thm (t : WordFrequency.Table) (b1 b2 : List (String × Nat)) :
    (∀ x, WordFrequency.lookupT
        (WordFrequency.mergeCounts (WordFrequency.mergeCounts t b1) b2) x =
      WordFrequency.lookupT
        (WordFrequency.mergeCounts (WordFrequency.mergeCounts t b2) b1) x) ∧
    WordFrequency.mergeCounts t (b1 ++ b2) =
      WordFrequency.mergeCounts (WordFrequency.mergeCounts t b1) b2 ∧
    (∀ x, WordFrequency.lookupT
        (WordFrequency.mergeCounts
          (WordFrequency.mergeCounts [] [("a", 2), ("b", 1)])
          [("a", 1), ("c", 3)]) x =
      WordFrequency.lookupT
        (WordFrequency.mergeCounts
          (WordFrequency.mergeCounts [] [("a", 1), ("c", 3)])
          [("a", 2), ("b", 1)]) x) := by
  refine ⟨fun x => WordFrequency.mergeCounts_comm t b1 b2 x, ?_,
    fun x => WordFrequency.mergeCounts_comm [] [("a", 2), ("b", 1)]
      [("a", 1), ("c", 3)] x⟩
  unfold WordFrequency.mergeCounts
  exact List.foldl_append ..

/-! ### Lemmas about the stable sort -/

theorem mem_insertSorted {le : α → α → Bool} {x a : α} {l : List α} :
    a ∈ insertSorted le x l ↔ a = x ∨ a ∈ l := by
  induction l with
  | nil => simp [insertSorted]
  | cons y ys ih =>
    by_cases h : le x y
    · simp [insertSorted, h]
    · simp [insertSorted, h, ih]
      tauto

theorem perm_insertSorted (le : α → α → Bool) (x : α) (l : List α) :
    List.Perm (insertSorted le x l) (x :: l) := by
  induction l with
  | nil => rfl
  | cons y ys ih =>
    by_cases h : le x y
    · simp [insertSorted, h]
    · rw [insertSorted, if_neg h]
      exact (ih.cons y).trans (List.Perm.swap x y ys)

theorem perm_stableSort (le : α → α → Bool) (l : List α) :
    List.Perm (stableSort le l) l := by
  induction l with
  | nil => rfl
  | cons x r ih =>
    show List.Perm (insertSorted le x (stableSort le r)) (x :: r)
    exact (perm_insertSorted le x (stableSort le r)).trans (ih.cons x)

theorem pairwise_insertSorted {le : α → α → Bool}
    (total : ∀ a b, le a b ∨ le b a)
    (htrans : ∀ a b c, le a b → le b c → le a c) {x : α} {l : List α}
    (h : l.Pairwise fun a b => le a b) :
    (insertSorted le x l).Pairwise fun a b => le a b := by
  induction l with
  | nil => simp [insertSorted]
  | cons y ys ih =>
    rw [List.pairwise_cons] at h
    obtain ⟨hy, hys⟩ := h
    by_cases hxy : le x y
    · rw [insertSorted, if_pos hxy]
      refine List.Pairwise.cons ?_ (List.Pairwise.cons hy hys)
      intro z hz
      rcases List.mem_cons.mp hz with rfl | hz
      · exact hxy
      · exact htrans x y z hxy (hy z hz)
    · rw [insertSorted, if_neg hxy]
      refine List.Pairwise.cons ?_ (ih hys)
      intro z hz
      rcases mem_insertSorted.mp hz with rfl | hz
      · rcases total z y with h1 | h1
        · exact absurd h1 hxy
        · exact h1
      · exact hy z hz

theorem pairwise_stableSort {le : α → α → Bool}
    (total : ∀ a b, le a b ∨ le b a)
    (htrans : ∀ a b c, le a b → le b c → le a c) (l : List α) :
    (stableSort le l).Pairwise fun a b => le a b := by
  induction l with
  | nil => simp [stableSort]
  | cons x r ih => exact pairwise_insertSorted total htrans ih

/-! ### The output orderings (claim C5) -/

theorem itemLe_iff (a b : String × Int × String) :
    MergeWords.itemLe a b = true ↔
      b.2.1 < a.2.1 ∨ (a.2.1 = b.2.1 ∧ a.1 ≤ b.1) := by
  simp [MergeWords.itemLe]

theorem itemLe_total (a b : String × Int × String) :
    MergeWords.itemLe a b ∨ MergeWords.itemLe b a := by
  rw [itemLe_iff, itemLe_iff]
  rcases lt_trichotomy a.2.1 b.2.1 with h | h | h
  · right; left; exact h
  · rcases le_total a.1 b.1 with h2 | h2
    · left; right; exact ⟨h, h2⟩
    · right; right; exact ⟨h.symm, h2⟩
  · left; left; exact h

theorem itemLe_trans (a b c : String × Int × String) :
    MergeWords.itemLe a b → MergeWords.itemLe b c → MergeWords.itemLe a c := by
  intro hab hbc
  rw [itemLe_iff] at hab hbc ⊢
  rcases hab with h1 | ⟨h1, h1'⟩ <;> rcases hbc with h2 | ⟨h2, h2'⟩
  · left; exact h2.trans h1
  · left; exact h2 ▸ h1
  · left; exact h1 ▸ h2
  · right; exact ⟨h1.trans h2, h1'.trans h2'⟩

/-- C5 counterexample: `analyze_word_frequency` sorts only by frequency
(`reverse=True` on a frequency key, stable), so two rows with equal frequency
keep the table's insertion order.  With insertion order `"b"` before `"a"`
(both frequency 1) the serialized order is `b, a`, although `"a" < "b"`. -/
theorem c5_counterexample :
    WordFrequency.sortRows [("b", 1, ""), ("a", 1, "")] =
        [("b", 1, ""), ("a", 1, "")] ∧
      ("a" : String) < "b" := by
  constructor
  · decide
  · rw [String.lt_iff_toList_lt]; decide

/-- C5 (amended): `merge_words.write_output` does order its rows by frequency
descending with ties broken by word ascending (key `(-freq, word)`), and emits
exactly the accumulator's rows; `word_frequency.analyze_word_frequency` orders
by frequency descending only (see the counterexample). -/
theorem c5_thm (acc : MergeWords.MWTable) :
    (MergeWords.write_output_items acc).Pairwise
        (fun a b => b.2.1 < a.2.1 ∨ (a.2.1 = b.2.1 ∧ a.1 ≤ b.1)) ∧
      (MergeWords.write_output_items acc).Perm
        (acc.map (fun e => (e.1, e.2.1, MergeWords.joinTranslations e.2.2))) := by
  constructor
  · exact (pairwise_stableSort itemLe_total itemLe_trans _).imp
      (fun hab => (itemLe_iff _ _).mp hab)
  · exact perm_stableSort _ _

/-! ### Whitelist exclusion (claim C8) -/

namespace WordFrequency

theorem mem_bumpCount {c : List (String × Nat)} {w : String} {p : String × Nat}
    (h : p ∈ bumpCount c w) : p.1 = w ∨ p.1 ∈ c.map Prod.fst := by
  induction c with
  | nil =>
    simp [bumpCount] at h
    simp [h]
  | cons e rest ih =>
    obtain ⟨k, n⟩ := e
    by_cases hk : k = w
    · subst hk
      rw [bumpCount, if_pos rfl] at h
      rcases List.mem_cons.mp h with rfl | h
      · left; rfl
      · right
        simp only [List.map_cons]
        exact List.mem_cons_of_mem _ (List.mem_map_of_mem Prod.fst h)
    · rw [bumpCount, if_neg hk] at h
      rcases List.mem_cons.mp h with rfl | h
      · right; simp
      · rcases ih h with h1 | h1
        · left; exact h1
        · right; simp only [List.map_cons]; exact List.mem_cons_of_mem _ h1

theorem countStep_keys {wl : List String} {acc : List (String × Nat)}
    {word : String} (hacc : ∀ p ∈ acc, p.1 ∉ wl) :
    ∀ p ∈ countStep wl acc word, p.1 ∉ wl := by
  intro p hp
  unfold countStep at hp
  split at hp
  · split at hp
    · rename_i hcl
      rcases mem_bumpCount hp with h1 | h1
      · rw [h1]; exact hcl
      · obtain ⟨q, hq, hq1⟩ := List.mem_map.mp h1
        exact hq1 ▸ hacc q hq
    · exact hacc p hp
  · exact hacc p hp

theorem foldl_countStep_keys {wl : List String} (ws : List String)
    (acc : List (String × Nat)) (hacc : ∀ p ∈ acc, p.1 ∉ wl) :
    ∀ p ∈ ws.foldl (countStep wl) acc, p.1 ∉ wl := by
  induction ws generalizing acc with
  | nil => exact hacc
  | cons w rest ih => exact ih _ (countStep_keys hacc)

theorem word_counts_keys (wl : List String) (content : String) :
    ∀ p ∈ word_counts wl content, p.1 ∉ wl :=
  foldl_countStep_keys _ [] (by simp)

theorem keyWeights_eq_nil {b : List (String × Nat)} {w : String}
    (h : ∀ p ∈ b, p.1 ≠ w) : keyWeights b w = [] := by
  induction b with
  | nil => rfl
  | cons p rest ih =>
    unfold keyWeights at ih ⊢
    rw [List.filterMap_cons]
    rw [if_neg (h p (List.mem_cons_self p rest))]
    exact ih (fun q hq => h q (List.mem_cons_of_mem p hq))

theorem lookupT_none_keys {t : Table} {w : String} (h : lookupT t w = none) :
    ∀ r ∈ t, r.1 ≠ w := by
  induction t with
  | nil => simp
  | cons e rest ih =>
    obtain ⟨k, v⟩ := e
    intro r hr
    by_cases hk : k = w
    · rw [lookupT, if_pos hk] at h
      simp at h
    · rw [lookupT, if_neg hk] at h
      rcases List.mem_cons.mp hr with rfl | hr
      · exact hk
      · exact ih h r hr

end WordFrequency

/-- C8 (amended): once a word is in the loaded whitelist *and* has been
removed from the existing table (as the declined-manual-entry path of
`word_translate.py` does: it appends the word to the whitelist file and pops
its row), no later `analyze_word_frequency` merge emits it — new occurrences
are filtered by the whitelist, so the merged table has no entry for the word
and no output row carries it. -/
theorem c8_thm (wlLines : List String) (content : String)
    (existing : WordFrequency.Table) (w : String)
    (h1 : w ∈ WordFrequency.load_whitelist wlLines)
    (h2 : WordFrequency.lookupT existing w = none) :
    WordFrequency.lookupT
        (WordFrequency.mergeCounts existing
          (WordFrequency.word_counts (WordFrequency.load_whitelist wlLines)
            content)) w = none ∧
      ∀ r ∈ WordFrequency.sortRows
          (WordFrequency.mergeCounts existing
            (WordFrequency.word_counts (WordFrequency.load_whitelist wlLines)
              content)), r.1 ≠ w := by
  have hkeys := WordFrequency.word_counts_keys
    (WordFrequency.load_whitelist wlLines) content
  have hkw : WordFrequency.keyWeights
      (WordFrequency.word_counts (WordFrequency.load_whitelist wlLines)
        content) w = [] :=
    WordFrequency.keyWeights_eq_nil
      (fun p hp heq => hkeys p hp (heq ▸ h1))
  have hnone : WordFrequency.lookupT
      (WordFrequency.mergeCounts existing
        (WordFrequency.word_counts (WordFrequency.load_whitelist wlLines)
          content)) w = none := by
    rw [WordFrequency.lookupT_mergeCounts, hkw]
    exact h2
  refine ⟨hnone, fun r hr => ?_⟩
  exact WordFrequency.lookupT_none_keys hnone r
    ((perm_stableSort WordFrequency.freqDescLe _).subset hr)

/-- C8 witness: whitelist `["foo"]`, fresh table, content `"foo bar"`. -/
theorem c8_witness :
    WordFrequency.lookupT
        (WordFrequency.mergeCounts []
          (WordFrequency.word_counts (WordFrequency.load_whitelist ["foo"])
            "foo bar")) "foo" = none :=
  (c8_thm ["foo"] "foo bar" [] "foo" (by decide) rfl).1

/-- C8 counterexample: the claim as stated fails when the whitelisted word is
still present in the existing table — `analyze_word_frequency` filters only
the *new* counts through the whitelist and re-emits every existing row, so
`"foo"` (whitelisted, recurring in the new text) is still emitted with its old
frequency 5. -/
theorem c8_counterexample :
    "foo" ∈ WordFrequency.load_whitelist ["foo"] ∧
      WordFrequency.mergeCounts [("foo", 5, "")]
          (WordFrequency.word_counts (WordFrequency.load_whitelist ["foo"])
            "foo foo foo") = [("foo", 5, "")] ∧
      ("foo", 5, "") ∈ WordFrequency.sortRows [("foo", 5, "")] := by
  decide

/-! ### Malformed-row handling (claim C9) -/

/-- C9 counterexample: in `merge_words.collect_from_file` a row whose
frequency field is unparsable is *not* skipped — `parse_int` maps the failure
to `0` and the row is merged, contributing its word and translation `"t"` to
the table. -/
theorem c9_counterexample :
    MergeWords.collect_from_file ["frequency", "word", "translation"]
        [⟨"abc", "w", "t"⟩] false true [] = [("w", 0, {"t"})] ∧
      ("w", 0, ({"t"} : Finset String)) ∈
        MergeWords.collect_from_file ["frequency", "word", "translation"]
          [⟨"abc", "w", "t"⟩] false true [] := by
  decide

/-- C9 (amended): no malformed input aborts the run: a file missing a required
column is skipped whole (accumulator unchanged, with a warning), and a row
whose frequency field fails integer parsing is processed exactly like the same
row with frequency `0` — its word and translations are still merged, only the
frequency contribution is zero. -/
theorem c9_thm (fieldnames : List String) (rows : List MergeWords.CsvRow)
    (ci st : Bool) (acc : MergeWords.MWTable) :
    (¬((MergeWords.requiredCols.all (fun c =>
          (fieldnames.map (fun f => pyLower (pyStrip f))).contains c)) = true) →
        MergeWords.collect_from_file fieldnames rows ci st acc = acc) ∧
      (∀ row : MergeWords.CsvRow, pyInt? row.frequency = none →
        MergeWords.collectRow ci st acc row =
          MergeWords.collectRow ci st acc ⟨"0", row.word, row.translation⟩) := by
  constructor
  · intro h
    unfold MergeWords.collect_from_file
    rw [if_neg h]
  · intro row h
    obtain ⟨fs, wd, tr⟩ := row
    have h0 : MergeWords.parse_int fs = MergeWords.parse_int "0" := by
      unfold MergeWords.parse_int
      rw [h]
      decide
    unfold MergeWords.collectRow
    rw [h0]

/-- C9 witness: a file with only a `word` column is skipped whole; the row
with frequency `"abc"` behaves like the same row with frequency `"0"`. -/
theorem c9_witness :
    MergeWords.collect_from_file ["word"] [⟨"3", "w", "t"⟩] false true [] =
        [] ∧
      MergeWords.collectRow false true [] ⟨"abc", "w", "t"⟩ =
        MergeWords.collectRow false true [] ⟨"0", "w", "t"⟩ :=
  ⟨(c9_thm ["word"] [⟨"3", "w", "t"⟩] false true []).1 (by decide),
    (c9_thm ["word"] [⟨"3", "w", "t"⟩] false true []).2 ⟨"abc", "w", "t"⟩
      (by decide)⟩

/-! ### Decimal printing and parsing round trip (towards claim C4) -/

theorem mem_of_head? {l : List Char} {c : Char} (h : l.head? = some c) :
    c ∈ l := by
  cases l with
  | nil => simp at h
  | cons d rest =>
    simp at h
    simp [h]

theorem mem_of_getLast? {l : List Char} {c : Char} (h : l.getLast? = some c) :
    c ∈ l := by
  rw [← List.head?_reverse] at h
  exact List.mem_reverse.mp (mem_of_head? h)

theorem digitVal_digitCh {d : Nat} (h : d < 10) : digitVal (digitCh d) = d := by
  interval_cases d <;> rfl

theorem isDigitCh_digitCh {d : Nat} (h : d < 10) :
    isDigitCh (digitCh d) = true := by
  interval_cases d <;> rfl

theorem digitsFuelGo_eq {fuel n : Nat} (acc : List Char) (h1 : 0 < n)
    (h2 : n ≤ fuel) :
    digitsFuelGo fuel n acc = ((Nat.digits 10 n).reverse.map digitCh) ++ acc := by
  induction fuel generalizing n acc with
  | zero => omega
  | succ fuel ih =>
    rw [digitsFuelGo]
    by_cases hlt : n < 10
    · rw [if_pos hlt, Nat.digits_of_lt 10 n (by omega) hlt]
      simp
    · rw [if_neg hlt]
      have hd : 0 < n / 10 := Nat.div_pos (by omega) (by norm_num)
      have hf : n / 10 ≤ fuel := by
        have := Nat.div_lt_self h1 (by norm_num : 1 < 10)
        omega
      rw [ih _ hd hf, Nat.digits_def' (by norm_num : (1 : Nat) < 10) h1]
      simp

theorem natRepr_data {n : Nat} (h : 0 < n) :
    (natRepr n).data = (Nat.digits 10 n).reverse.map digitCh := by
  show digitsFuelGo (n + 1) n [] = _
  rw [digitsFuelGo_eq [] h (by omega)]
  simp

theorem natRepr_all_digits (n : Nat) :
    ∀ c ∈ (natRepr n).data, isDigitCh c = true := by
  rcases Nat.eq_zero_or_pos n with rfl | h
  · decide
  · rw [natRepr_data h]
    intro c hc
    obtain ⟨d, hd, rfl⟩ := List.mem_map.mp hc
    exact isDigitCh_digitCh
      (Nat.digits_lt_base (by norm_num) (List.mem_reverse.mp hd))

theorem natRepr_ne_nil (n : Nat) : (natRepr n).data ≠ [] := by
  rcases Nat.eq_zero_or_pos n with rfl | h
  · decide
  · rw [natRepr_data h]
    have hd : Nat.digits 10 n ≠ [] :=
      Nat.digits_ne_nil_iff_ne_zero.mpr (Nat.pos_iff_ne_zero.mp h)
    simp [hd]

theorem foldl_digitVal (L : List Nat) (hL : ∀ d ∈ L, d < 10) (a : Nat) :
    (L.reverse.map digitCh).foldl (fun a c => 10 * a + digitVal c) a =
      a * 10 ^ L.length + Nat.ofDigits 10 L := by
  induction L generalizing a with
  | nil => simp
  | cons d T ih =>
    rw [List.reverse_cons, List.map_append, List.foldl_append]
    rw [ih (fun x hx => hL x (List.mem_cons_of_mem d hx))]
    simp only [List.map_cons, List.map_nil, List.foldl_cons, List.foldl_nil,
      digitVal_digitCh (hL d (List.mem_cons_self d T)), Nat.ofDigits_cons,
      List.length_cons, pow_succ]
    ring

theorem natDigits?_natRepr (n : Nat) : natDigits? (natRepr n).data = some n := by
  rcases Nat.eq_zero_or_pos n with rfl | h
  · decide
  · have hne : (natRepr n).data.isEmpty = false := by
      simp [List.isEmpty_iff, natRepr_ne_nil n]
    have hall : (natRepr n).data.all isDigitCh = true :=
      List.all_eq_true.mpr (natRepr_all_digits n)
    unfold natDigits?
    rw [if_pos (by simp [hne, hall])]
    rw [natRepr_data h,
      foldl_digitVal _ (fun d hd => Nat.digits_lt_base (by norm_num) hd) 0]
    simp [Nat.ofDigits_digits]

theorem isDigit_not_space {c : Char} (h : isDigitCh c = true) :
    isSpaceCh c = false := by
  simp [isDigitCh] at h
  simp [isSpaceCh]
  omega

theorem isDigit_ne_plus {c : Char} (h : isDigitCh c = true) : ¬c = '+' := by
  intro he
  subst he
  simp [isDigitCh] at h

theorem isDigit_ne_minus {c : Char} (h : isDigitCh c = true) : ¬c = '-' := by
  intro he
  subst he
  simp [isDigitCh] at h

theorem pyStripL_natRepr (n : Nat) :
    pyStripL (natRepr n).data = (natRepr n).data := by
  apply pyStripL_eq_self
  · intro c hc
    exact isDigit_not_space (natRepr_all_digits n c (mem_of_head? hc))
  · intro c hc
    exact isDigit_not_space (natRepr_all_digits n c (mem_of_getLast? hc))

theorem pyInt?_natRepr (n : Nat) : pyInt? (natRepr n) = some (n : Int) := by
  unfold pyInt?
  rw [pyStripL_natRepr]
  obtain ⟨c, ds, hd⟩ : ∃ c ds, (natRepr n).data = c :: ds := by
    cases h : (natRepr n).data with
    | nil => exact absurd h (natRepr_ne_nil n)
    | cons c ds => exact ⟨c, ds, rfl⟩
  have hc : isDigitCh c = true :=
    natRepr_all_digits n c (hd ▸ List.mem_cons_self c ds)
  simp only [hd]
  rw [if_neg (isDigit_ne_plus hc), if_neg (isDigit_ne_minus hc), ← hd,
    natDigits?_natRepr]
  rfl

/-! ### Field escaping, quoting and splitting (towards claim C4) -/

namespace WordFrequency

/-- Fields for which the hand-rolled quoting of `analyze_word_frequency`
round-trips: no delimiter, no quote, no newline, and no apostrophe at either
end (the parser strips `"` and `'` from both ends of a field). -/
def okField (s : String) : Prop :=
  ',' ∉ s.data ∧ quoteCh ∉ s.data ∧ '\n' ∉ s.data ∧ '\r' ∉ s.data ∧
    s.data.head? ≠ some apostCh ∧ s.data.getLast? ≠ some apostCh

instance (s : String) : Decidable (okField s) := by
  unfold okField
  infer_instance

theorem escList_eq_self {l : List Char} (h1 : ',' ∉ l) (h2 : quoteCh ∉ l) :
    ((l.map (fun c => if c = ',' then ';' else c)).map
        (fun c => if c = quoteCh then [quoteCh, quoteCh] else [c])).flatten =
      l := by
  induction l with
  | nil => rfl
  | cons c rest ih =>
    have hc1 : ¬c = ',' := fun h => h1 (h ▸ List.mem_cons_self c rest)
    have hc2 : ¬c = quoteCh := fun h => h2 (h ▸ List.mem_cons_self c rest)
    simp only [List.map_cons, List.flatten_cons, if_neg hc1, if_neg hc2]
    rw [ih (fun h => h1 (List.mem_cons_of_mem c h))
        (fun h => h2 (List.mem_cons_of_mem c h))]
    rfl

theorem escapeField_eq_self {s : String} (h1 : ',' ∉ s.data)
    (h2 : quoteCh ∉ s.data) : escapeField s = s := by
  show (⟨_⟩ : String) = s
  rw [escList_eq_self h1 h2]

theorem serializeRow_data {w tr : String} {f : Nat} (hw : okField w)
    (htr : okField tr) :
    (serializeRow (w, f, tr)).data =
      (natRepr f).data ++ [','] ++ [quoteCh] ++ w.data ++ [quoteCh] ++ [','] ++
        [quoteCh] ++ tr.data ++ [quoteCh] := by
  show (natRepr f).data ++ [','] ++ [quoteCh] ++ (escapeField w).data ++
      [quoteCh] ++ [','] ++ [quoteCh] ++ (escapeField tr).data ++ [quoteCh] = _
  rw [escapeField_eq_self hw.1 hw.2.1, escapeField_eq_self htr.1 htr.2.1]

theorem splitFirst_append {sep : Char} {a : List Char} (b : List Char)
    (h : sep ∉ a) : splitFirst sep (a ++ sep :: b) = some (a, b) := by
  induction a with
  | nil => simp [splitFirst]
  | cons c cs ih =>
    have hc : ¬c = sep := fun he => h (he ▸ List.mem_cons_self c cs)
    rw [List.cons_append, splitFirst, if_neg hc,
      ih (fun hm => h (List.mem_cons_of_mem c hm))]
    rfl

theorem split2_eq {p0 p1 p2 : List Char} (h0 : ',' ∉ p0) (h1 : ',' ∉ p1) :
    split2 (p0 ++ ',' :: (p1 ++ ',' :: p2)) = [p0, p1, p2] := by
  unfold split2
  rw [splitFirst_append _ h0]
  dsimp only
  rw [splitFirst_append _ h1]

theorem pyStripChar_eq_self {q : Char} {w : List Char}
    (h1 : ∀ c, w.head? = some c → (c = q) = False)
    (h2 : ∀ c, w.getLast? = some c → (c = q) = False) :
    pyStripChar q w = w := by
  unfold pyStripChar
  have hdw : w.dropWhile (· = q) = w := by
    cases w with
    | nil => rfl
    | cons c rest =>
      rw [List.dropWhile_cons]
      have := h1 c rfl
      simp only [decide_eq_true_eq, this]
      simp
  rw [hdw]
  unfold dropTrail
  have hdw2 : w.reverse.dropWhile (· = q) = w.reverse := by
    cases hr : w.reverse with
    | nil => rfl
    | cons c rest =>
      rw [List.dropWhile_cons]
      have hc : w.getLast? = some c := by
        rw [← List.head?_reverse, hr]
        rfl
      have := h2 c hc
      simp only [decide_eq_true_eq, this]
      simp
  rw [hdw2, List.reverse_reverse]

theorem dropWhile_eq_ch_reverse {q : Char} {w : List Char} (hq : q ∉ w) :
    w.reverse.dropWhile (· = q) = w.reverse := by
  apply dropWhile_eq_self_of_head
  intro c hc
  rw [List.head?_reverse] at hc
  have hm : c ∈ w := mem_of_getLast? hc
  simp only [decide_eq_false_iff_not]
  exact fun he => hq (he ▸ hm)

theorem pyStripChar_wrap {q : Char} {w : List Char} (hq : q ∉ w) :
    pyStripChar q (q :: w ++ [q]) = w := by
  show pyStripChar q (q :: (w ++ [q])) = w
  unfold pyStripChar
  have hfront : (q :: (w ++ [q])).dropWhile (· = q) =
      (w ++ [q]).dropWhile (· = q) := by
    rw [List.dropWhile_cons]
    simp
  rw [hfront]
  cases w with
  | nil => simp [dropTrail]
  | cons c rest =>
    have hc : ¬c = q := fun he => hq (he ▸ List.mem_cons_self c rest)
    have hmid : ((c :: rest) ++ [q]).dropWhile (· = q) = (c :: rest) ++ [q] := by
      apply dropWhile_eq_self_of_head
      intro d hd
      obtain rfl : c = d := by simpa using hd
      simp only [decide_eq_false_iff_not]
      exact hc
    rw [hmid]
    unfold dropTrail
    have hrev : ((c :: rest) ++ [q]).reverse = q :: (c :: rest).reverse := by
      simp
    rw [hrev, List.dropWhile_cons]
    simp only [decide_eq_true_eq, eq_self_iff_true, if_true]
    rw [dropWhile_eq_ch_reverse hq, List.reverse_reverse]

theorem stripQuotes_wrap {w : List Char} (hqw : quoteCh ∉ w)
    (h1 : w.head? ≠ some apostCh) (h2 : w.getLast? ≠ some apostCh) :
    stripQuotes (quoteCh :: w ++ [quoteCh]) = w := by
  unfold stripQuotes
  rw [pyStripChar_wrap hqw]
  apply pyStripChar_eq_self
  · intro c hc
    simp only [eq_iff_iff, iff_false]
    intro he
    exact h1 (by rw [hc, he])
  · intro c hc
    simp only [eq_iff_iff, iff_false]
    intro he
    exact h2 (by rw [hc, he])

end WordFrequency

namespace WordFrequency

theorem isDigit_ne_comma {c : Char} (h : isDigitCh c = true) : ¬c = ',' := by
  intro he
  subst he
  simp [isDigitCh] at h

theorem isDigit_ne_nl {c : Char} (h : isDigitCh c = true) : ¬c = '\n' := by
  intro he
  subst he
  simp [isDigitCh] at h

theorem comma_notin_natRepr (f : Nat) : ',' ∉ (natRepr f).data := by
  intro h
  exact isDigit_ne_comma (natRepr_all_digits f ',' h) rfl

/-- The serialized row, reassociated into the form the parser decomposes. -/
theorem serializeRow_shape {w tr : String} {f : Nat} (hw : okField w)
    (htr : okField tr) :
    (serializeRow (w, f, tr)).data =
      (natRepr f).data ++ ',' ::
        (([quoteCh] ++ w.data ++ [quoteCh]) ++ ',' ::
          ([quoteCh] ++ tr.data ++ [quoteCh])) := by
  rw [serializeRow_data hw htr]
  simp [List.append_assoc]

theorem head?_append_left {a b : List Char} (h : a ≠ []) :
    (a ++ b).head? = a.head? := by
  cases a with
  | nil => exact absurd rfl h
  | cons c rest => rfl

theorem pyStripL_serializeRow {w tr : String} {f : Nat} (hw : okField w)
    (htr : okField tr) :
    pyStripL (serializeRow (w, f, tr)).data = (serializeRow (w, f, tr)).data := by
  apply pyStripL_eq_self
  · intro c hc
    rw [serializeRow_shape hw htr,
      head?_append_left (natRepr_ne_nil f)] at hc
    exact isDigit_not_space (natRepr_all_digits f c (mem_of_head? hc))
  · intro c hc
    have hsh : (serializeRow (w, f, tr)).data =
        ((natRepr f).data ++ ',' ::
          (([quoteCh] ++ w.data ++ [quoteCh]) ++ ',' ::
            ([quoteCh] ++ tr.data))) ++ [quoteCh] := by
      rw [serializeRow_shape hw htr]
      simp [List.append_assoc]
    rw [hsh, List.getLast?_concat] at hc
    obtain rfl : quoteCh = c := by simpa using hc
    decide

theorem serializeRow_ne_nil {w tr : String} {f : Nat} (hw : okField w)
    (htr : okField tr) : (serializeRow (w, f, tr)).data ≠ [] := by
  rw [serializeRow_shape hw htr]
  intro h
  exact (natRepr_ne_nil f) (List.append_eq_nil.mp h).1

theorem parseLoop_cons_serialized (w tr : String) (f : Nat) (hw : okField w)
    (htr : okField tr) (rest : List (List Char)) :
    parseLoop ((serializeRow (w, f, tr)).data :: rest) =
      ((f : Int), w, tr) :: parseLoop rest := by
  have hcomma1 : ',' ∉ [quoteCh] ++ w.data ++ [quoteCh] := by
    intro h
    rcases List.mem_append.mp h with h | h
    · rcases List.mem_append.mp h with h | h
      · simp at h
        exact absurd h.symm (by decide)
      · exact hw.1 h
    · simp at h
      exact absurd h.symm (by decide)
  rw [parseLoop]
  rw [pyStripL_serializeRow hw htr]
  rw [if_neg (by simp [List.isEmpty_iff, serializeRow_ne_nil hw htr])]
  rw [serializeRow_shape hw htr, split2_eq (comma_notin_natRepr f) hcomma1]
  dsimp only
  have heta : (⟨(natRepr f).data⟩ : String) = natRepr f := rfl
  rw [heta, pyInt?_natRepr]
  dsimp only
  have hq1 : [quoteCh] ++ w.data ++ [quoteCh] = quoteCh :: w.data ++ [quoteCh] := by
    simp
  have hq2 : [quoteCh] ++ tr.data ++ [quoteCh] =
      quoteCh :: tr.data ++ [quoteCh] := by
    simp
  rw [hq1, hq2, stripQuotes_wrap hw.2.1 hw.2.2.2.2.1 hw.2.2.2.2.2,
    stripQuotes_wrap htr.2.1 htr.2.2.2.2.1 htr.2.2.2.2.2]

theorem serializeRow_no_nl {w tr : String} {f : Nat} (hw : okField w)
    (htr : okField tr) : '\n' ∉ (serializeRow (w, f, tr)).data := by
  rw [serializeRow_data hw htr]
  intro h
  simp only [List.mem_append, List.mem_singleton] at h
  rcases h with ((((((((h | h) | h) | h) | h) | h) | h) | h) | h)
  · exact isDigit_ne_nl (natRepr_all_digits f _ h) rfl
  · exact absurd h (by decide)
  · exact absurd h (by decide)
  · exact hw.2.2.1 h
  · exact absurd h (by decide)
  · exact absurd h (by decide)
  · exact absurd h (by decide)
  · exact htr.2.2.1 h
  · exact absurd h (by decide)

end WordFrequency

theorem splitChGo_no_sep {sep : Char} {a : List Char} (acc b : List Char)
    (h : sep ∉ a) :
    splitChGo sep acc (a ++ sep :: b) =
      (acc.reverse ++ a) :: splitChGo sep [] b := by
  induction a generalizing acc with
  | nil =>
    rw [List.nil_append, splitChGo, if_pos rfl]
    simp
  | cons c cs ih =>
    have hc : ¬c = sep := fun he => h (he ▸ List.mem_cons_self c cs)
    rw [List.cons_append, splitChGo, if_neg hc,
      ih (c :: acc) (fun hm => h (List.mem_cons_of_mem c hm))]
    simp

namespace WordFrequency

theorem splitCh_joinLinesNl (L : List String) (h : ∀ l ∈ L, '\n' ∉ l.data) :
    splitCh '\n' (joinLinesNl L).data = L.map String.data ++ [[]] := by
  induction L with
  | nil => rfl
  | cons s rest ih =>
    have hdata : (joinLinesNl (s :: rest)).data =
        s.data ++ '\n' :: (joinLinesNl rest).data := by
      show (s ++ "\n" ++ joinLinesNl rest).data = _
      simp [List.append_assoc]
    unfold splitCh
    rw [hdata, splitChGo_no_sep [] _ (h s (List.mem_cons_self s rest))]
    rw [List.reverse_nil, List.nil_append]
    have := ih (fun l hl => h l (List.mem_cons_of_mem s hl))
    unfold splitCh at this
    rw [this]
    rfl

theorem parseLoop_serialized (rows : List (String × Nat × String))
    (h : ∀ r ∈ rows, okField r.1 ∧ okField r.2.2) :
    parseLoop ((rows.map serializeRow).map String.data ++ [[]]) =
      rows.map (fun r => ((r.2.1 : Int), r.1, r.2.2)) := by
  induction rows with
  | nil => rfl
  | cons r rest ih =>
    obtain ⟨w, f, tr⟩ := r
    obtain ⟨hw, htr⟩ := h (w, f, tr) (List.mem_cons_self _ rest)
    simp only [List.map_cons, List.cons_append]
    rw [parseLoop_cons_serialized w tr f hw htr]
    rw [ih (fun q hq => h q (List.mem_cons_of_mem _ hq))]

theorem parse_serialize (t : Table) (h : ∀ r ∈ t, okField r.1 ∧ okField r.2.2) :
    parse_table (serialize_table t) =
      (sortRows t).map (fun r => ((r.2.1 : Int), r.1, r.2.2)) := by
  have hrows : ∀ r ∈ sortRows t, okField r.1 ∧ okField r.2.2 :=
    fun r hr => h r ((perm_stableSort freqDescLe t).subset hr)
  have hnl : ∀ l ∈ ("frequency,word,translation" ::
      (sortRows t).map serializeRow), '\n' ∉ l.data := by
    intro l hl
    rcases List.mem_cons.mp hl with rfl | hl
    · decide
    · obtain ⟨r, hr, rfl⟩ := List.mem_map.mp hl
      obtain ⟨w, f, tr⟩ := r
      exact serializeRow_no_nl (hrows _ hr).1 (hrows _ hr).2
  unfold parse_table serialize_table
  rw [splitCh_joinLinesNl _ hnl]
  simp only [List.map_cons, List.cons_append]
  exact parseLoop_serialized (sortRows t) hrows

end WordFrequency

/-- C4 counterexample: a word containing the delimiter is not quoted but
*rewritten* (`word.replace(",", ";")`), so serializing the row
`("a,b", 1, "")` and re-parsing yields the different word `"a;b"` — the round
trip does not reproduce the original triple. -/
theorem c4_counterexample :
    WordFrequency.parse_table
        (WordFrequency.serialize_table [("a,b", 1, "")]) =
      [(1, "a;b", "")] ∧ ("a;b" : String) ≠ "a,b" := by
  decide

/-- C4 (amended): serializing a table and re-parsing it reproduces exactly the
original `(word, frequency, translation)` triples (as a permutation — the
writer sorts the rows) provided every `word` and `translation` field contains
no comma, double quote, or newline character and has no apostrophe at either
end.  Fields containing the delimiter or a quote are *not* recovered: the
writer replaces `","` by `";"` and the reader's `strip('"')`/`strip("'")`
destroys doubled quotes (see the counterexample). -/
theorem c4_thm (t : WordFrequency.Table)
    (h : ∀ r ∈ t, WordFrequency.okField r.1 ∧ WordFrequency.okField r.2.2) :
    (WordFrequency.parse_table (WordFrequency.serialize_table t)).Perm
      (t.map (fun r => ((r.2.1 : Int), r.1, r.2.2))) := by
  rw [WordFrequency.parse_serialize t h]
  exact (perm_stableSort WordFrequency.freqDescLe t).map _

/-- C4 witness: a two-row table with plain fields round-trips. -/
theorem c4_witness :
    (WordFrequency.parse_table
        (WordFrequency.serialize_table [("ab", 3, "x | y"), ("cd", 7, "")])).Perm
      [((3 : Int), "ab", "x | y"), ((7 : Int), "cd", "")] :=
  c4_thm [("ab", 3, "x | y"), ("cd", 7, "")] (by decide)
